import Mathlib

/-!
Verification of the handwriting-scan pipeline (src/main.rs) against its
natural-language specification.  The pipeline is embedded shallowly:
images are grids of natural-number pixel values, the f32 arithmetic of
the border-crop computation is embedded exactly as rounding of naturals
to 24 significant bits with ties to even.
-/

namespace HandwritingScan

/-- A raster image: dimensions plus a (total) pixel function.  Pixels at
coordinates outside the dimensions are irrelevant to every claim. -/
structure Image where
  width : ℕ
  height : ℕ
  pixel : ℕ → ℕ → ℕ

/-- Binarizer output value for background (white), from the external
threshold function which writes 255. -/
def background : ℕ := 255

/-- Binarizer output value for foreground (ink, black). -/
def foreground : ℕ := 0

/-- The image crate rotate270 (main.rs line 99): a 270-degree clockwise
rotation, i.e. 90 degrees counter-clockwise; the destination buffer is
created with swapped dimensions and the crate writes
put_pixel(y, width - x - 1, get_pixel(x, y)). -/
def rotate270 (img : Image) : Image where
  width := img.height
  height := img.width
  pixel := fun a b => img.pixel (img.width - 1 - b) a

/-- main.rs lines 98-100: rotate only when height exceeds width. -/
def orient (img : Image) : Image :=
  if img.width < img.height then rotate270 img else img

/-- The image crate view + to_image (main.rs line 113 and 174): a
sub-image whose pixel (i, j) is the parent pixel (x + i, y + j). -/
def view (img : Image) (x y w h : ℕ) : Image where
  width := w
  height := h
  pixel := fun i j => img.pixel (x + i) (y + j)

/-! ### Exact embedding of the f32 border-margin arithmetic

main.rs lines 107-111 compute the crop margins in 32-bit float
arithmetic.  All values involved are positive and lie well inside the
normal range of f32, so an f32 value is exactly a natural mantissa of at
most 24 bits divided by a fixed power of two, and each f32 operation
rounds the exact result to 24 significant bits, ties to even. -/

/-- Number of binary digits of n, computed with explicit fuel so that it
reduces by Nat.rec steps only (fuel 64 covers every value that occurs:
all inputs are below 2 to the 64). -/
def bitsAux : ℕ → ℕ → ℕ :=
  Nat.rec (motive := fun _ => ℕ → ℕ)
    (fun _ => 0)
    (fun _ ih n => if n = 0 then 0 else ih (n / 2) + 1)

/-- Number of binary digits of n (correct for n below 2 to the 64). -/
def bits (n : ℕ) : ℕ := bitsAux 64 n

/-- Round a natural number to a multiple of 2 to the s, to nearest with
ties to even. -/
def rmAt (s n : ℕ) : ℕ :=
  if 2 ^ (s - 1) < n % 2 ^ s ∨ (n % 2 ^ s = 2 ^ (s - 1) ∧ (n / 2 ^ s) % 2 = 1)
  then (n / 2 ^ s + 1) * 2 ^ s
  else (n / 2 ^ s) * 2 ^ s

/-- Round a natural number to 24 significant binary digits, ties to
even: the rounding IEEE-754 binary32 performs on every arithmetic
result (the power-of-two denominator is unchanged by rounding). -/
def rm (n : ℕ) : ℕ :=
  if n < 2 ^ 24 then n else rmAt (bits n - 24) n

/-- main.rs line 108: (width as f32 * 0.066).floor() as u32.  The f32
nearest to 0.066 is 8858370 / 2 ^ 27; u32-to-f32 conversion and f32
multiplication each round to 24 significant bits; floor and the u32 cast
are exact here. -/
def cropX (w : ℕ) : ℕ := rm (rm w * 8858370) / 2 ^ 27

/-- main.rs line 109: (height as f32 * 0.079).floor() as u32, with
0.079f32 = 10603201 / 2 ^ 27. -/
def cropY (h : ℕ) : ℕ := rm (rm h * 10603201) / 2 ^ 27

/-- main.rs line 111: (y as f32 * 0.2) as u32 (truncation), with
0.2f32 = 13421773 / 2 ^ 26. -/
def cropExtra (y : ℕ) : ℕ := rm (rm y * 13421773) / 2 ^ 26

/-- main.rs lines 107-113: the border crop. -/
def cropBorder (img : Image) : Image :=
  let x := cropX img.width
  let y := cropY img.height
  view img x y (img.width - x * 2) (img.height - y * 2 + cropExtra y)

/-! ### The remaining pipeline stages -/

/-- Modelled from the spec: the comparison direction of the external
call imageproc contrast threshold (main.rs line 105).  The crate is not
part of this repository and no file under src pins its version, so the
direction is taken from the words of the spec: pixels with luma greater
than or equal to the threshold become background (255), pixels strictly
below become foreground (0). -/
def threshold (img : Image) (t : ℕ) : Image where
  width := img.width
  height := img.height
  pixel := fun x y => if t ≤ img.pixel x y then background else foreground

/-- Clamp an integer convolution result to the byte range, as the image
crate does before casting back to the subpixel type. -/
def clampByte (v : ℤ) : ℕ := min v.toNat 255

/-- The image crate imageops filter3x3 (main.rs line 103): the output
buffer has the dimensions of the input, border pixels keep the buffer
default 0, interior pixels receive the 3x3 convolution divided by the
kernel sum (1 when that sum is 0) and clamped to the subpixel range.
All intermediate f32 values here are integers far below 2 to the 24, so
the f32 arithmetic of the crate is exact and is embedded as integer
arithmetic. -/
def filter3x3 (k : List ℤ) (img : Image) : Image where
  width := img.width
  height := img.height
  pixel := fun x y =>
    if 1 ≤ x ∧ x + 1 < img.width ∧ 1 ≤ y ∧ y + 1 < img.height then
      let p : ℕ → ℕ → ℤ := fun a b => (img.pixel a b : ℤ)
      let t : ℤ :=
        k.getD 0 0 * p (x - 1) (y - 1) + k.getD 1 0 * p x (y - 1) +
          k.getD 2 0 * p (x + 1) (y - 1) +
          k.getD 3 0 * p (x - 1) y + k.getD 4 0 * p x y + k.getD 5 0 * p (x + 1) y +
          k.getD 6 0 * p (x - 1) (y + 1) + k.getD 7 0 * p x (y + 1) +
          k.getD 8 0 * p (x + 1) (y + 1)
      let s : ℤ := if k.sum = 0 then 1 else k.sum
      clampByte (t / s)
    else 0

/-- main.rs line 103: the sharpening kernel passed to filter3x3. -/
def sharpenKernel : List ℤ := [0, -1, 0, -1, 5, -1, 0, -1, 0]

/-- A rectangle in pixel coordinates; a SubImage of the image crate
stores exactly these offsets and extents. -/
structure Rect where
  x : ℕ
  y : ℕ
  w : ℕ
  h : ℕ
deriving DecidableEq

/-- main.rs lines 154-180: divide the image into a grid of cells,
pushing each cell (as its rectangle together with the sub-image view)
in row-major order.  The parameters width and height are the column and
row counts, as in the source. -/
def grid_cut_image (image_buffer : Image) (width height : ℕ) : List (Rect × Image) :=
  let cell_width := image_buffer.width / width
  let cell_height := image_buffer.height / height
  (List.range height).flatMap fun row =>
    (List.range width).map fun col =>
      let x := col * cell_width
      let y := row * cell_height
      (⟨x, y, cell_width, cell_height⟩, view image_buffer x y cell_width cell_height)

/-- main.rs lines 97-115: the processing pipeline of the scan command,
from the loaded image to the list of letter cells. -/
def scan (t : ℕ) (img : Image) : List (Rect × Image) :=
  let i1 := orient img
  let i2 := filter3x3 sharpenKernel i1
  let i3 := threshold i2 t
  let i4 := cropBorder i3
  grid_cut_image i4 12 9

/-- The typed error of the boundary threshold validation. -/
inductive ScanError where
  | invalidThreshold
deriving DecidableEq

/-- Modelled from the spec: the command boundary rejects threshold
values outside the pixel range before the pipeline runs.  In the source
this is the clap parse of the u8-typed threshold field (main.rs lines
58-61), which fails for any value above 255; the spec names the
rejection InvalidThreshold. -/
def parseThreshold (t : ℕ) : Except ScanError ℕ :=
  if t ≤ 255 then Except.ok t else Except.error ScanError.invalidThreshold

/-- The scan command including the boundary validation: the pipeline
only runs on a successfully parsed threshold. -/
def runScan (t : ℕ) (img : Image) : Except ScanError (List (Rect × Image)) :=
  (parseThreshold t).map fun t0 => scan t0 img

instance : Inhabited Image := ⟨⟨0, 0, fun _ _ => 0⟩⟩

instance : Inhabited Rect := ⟨⟨0, 0, 0, 0⟩⟩

/-- The cell of the grid at a given column and row. -/
def gridCell (img : Image) (cols rows col row : ℕ) : Rect × Image :=
  let cw := img.width / cols
  let ch := img.height / rows
  (⟨col * cw, row * ch, cw, ch⟩, view img (col * cw) (row * ch) cw ch)

/-- Membership of a pixel coordinate in a rectangle. -/
def inRect (r : Rect) (px py : ℕ) : Prop :=
  r.x ≤ px ∧ px < r.x + r.w ∧ r.y ≤ py ∧ py < r.y + r.h

/-- Two rectangles are disjoint when no pixel coordinate lies in both. -/
def RectDisjoint (a b : Rect) : Prop :=
  ∀ px py, ¬(inRect a px py ∧ inRect b px py)

/-- An image is binary when every pixel is the foreground or the
background value. -/
def IsBinary (img : Image) : Prop :=
  ∀ x y, img.pixel x y = foreground ∨ img.pixel x y = background

/-- C1: for every grayscale image and threshold t in [0, 255], the
Binarizer maps every pixel with luma at least t to background and every
pixel strictly below t to foreground; hence threshold 0 yields an
all-background image and threshold 255 yields all-foreground except at
pixels whose value is exactly 255. -/
theorem binarizer_classifies (img : Image) (t : ℕ) (ht : t ≤ 255)
    (hb : ∀ x y, img.pixel x y ≤ 255) :
    (∀ x y, (t ≤ img.pixel x y → (threshold img t).pixel x y = background) ∧
      (img.pixel x y < t → (threshold img t).pixel x y = foreground)) ∧
    (∀ x y, (threshold img 0).pixel x y = background) ∧
    (∀ x y, img.pixel x y ≠ 255 → (threshold img 255).pixel x y = foreground) ∧
    (∀ x y, img.pixel x y = 255 → (threshold img 255).pixel x y = background) := by
  refine ⟨fun x y => ⟨fun h => ?_, fun h => ?_⟩, fun x y => ?_, fun x y h => ?_, fun x y h => ?_⟩
  · simp [threshold, h]
  · simp [threshold, Nat.not_le.mpr h]
  · simp [threshold]
  · have : img.pixel x y < 255 := lt_of_le_of_ne (hb x y) h
    simp [threshold, Nat.not_le.mpr this]
  · simp [threshold, h]

theorem binarizer_classifies_witness :
    (threshold ⟨2, 1, fun x _ => if x = 0 then 100 else 200⟩ 190).pixel 0 0 = foreground ∧
    (threshold ⟨2, 1, fun x _ => if x = 0 then 100 else 200⟩ 190).pixel 1 0 = background := by
  have h := binarizer_classifies ⟨2, 1, fun x _ => if x = 0 then 100 else 200⟩ 190
    (by decide) (fun x y => by by_cases hx : x = 0 <;> simp [hx])
  exact ⟨(h.1 0 0).2 (by decide), (h.1 1 0).1 (by decide)⟩

/-- C2: the Binarizer output is binary (every pixel is the foreground
value or the background value), and the binary invariant is preserved by
the border crop and by every cell produced by the grid segmentation. -/
theorem binary_invariant (img : Image) (t : ℕ) :
    IsBinary (threshold img t) ∧
    IsBinary (cropBorder (threshold img t)) ∧
    ∀ cols rows : ℕ, ∀ c ∈ grid_cut_image (cropBorder (threshold img t)) cols rows,
      IsBinary c.2 := by
  have hthr : IsBinary (threshold img t) := by
    intro x y
    by_cases h : t ≤ img.pixel x y
    · right; simp [threshold, h]
    · left; simp [threshold, h]
  refine ⟨hthr, fun x y => hthr _ _, fun cols rows c hc => ?_⟩
  simp only [grid_cut_image, List.mem_flatMap, List.mem_map, List.mem_range] at hc
  obtain ⟨row, -, col, -, rfl⟩ := hc
  intro x y
  exact hthr _ _

/-- C3: the Orientation Normalizer rotates an image whose height
exceeds its width with the image crate rotate270 (so that the output
satisfies width at least height) and is the identity on every image
whose width is at least its height, square images included. -/
theorem orientation_normalizer (img : Image) :
    (img.width < img.height →
      orient img = rotate270 img ∧
      (orient img).width = img.height ∧ (orient img).height = img.width ∧
      (orient img).height ≤ (orient img).width) ∧
    (img.height ≤ img.width → orient img = img) := by
  constructor
  · intro h
    have ho : orient img = rotate270 img := by simp [orient, h]
    refine ⟨ho, ?_, ?_, ?_⟩ <;> rw [ho] <;> simp [rotate270]
    · exact le_of_lt h
  · intro h
    simp [orient, Nat.not_lt.mpr h]

theorem orientation_normalizer_witness :
    orient ⟨2, 3, fun _ _ => 0⟩ = rotate270 ⟨2, 3, fun _ _ => 0⟩ ∧
    orient ⟨3, 2, fun _ _ => 0⟩ = ⟨3, 2, fun _ _ => 0⟩ := by
  constructor
  · exact ((orientation_normalizer ⟨2, 3, fun _ _ => 0⟩).1 (by decide)).1
  · exact (orientation_normalizer ⟨3, 2, fun _ _ => 0⟩).2 (by decide)

/-! ### Grid segmentation geometry -/

theorem range_flatMap_map {α : Type} (f : ℕ → ℕ → α) (rows cols : ℕ) :
    ((List.range rows).flatMap fun r => (List.range cols).map (f r)) =
      (List.range (rows * cols)).map fun i => f (i / cols) (i % cols) := by
  induction rows with
  | zero => simp
  | succ n ih =>
    rw [List.range_succ, List.flatMap_append, ih, Nat.succ_mul, List.range_add,
      List.map_append]
    congr 1
    · rw [List.map_map]
      simp only [List.flatMap_cons, List.flatMap_nil, List.append_nil]
      refine List.map_congr_left fun x hx => ?_
      have hx0 : x < cols := List.mem_range.mp hx
      have hcols : 0 < cols := by omega
      have hdiv : (n * cols + x) / cols = n := by
        rw [Nat.mul_comm n cols, Nat.mul_add_div hcols, Nat.div_eq_of_lt hx0]
        omega
      have hmod : (n * cols + x) % cols = x := by
        rw [Nat.mul_comm n cols, Nat.mul_add_mod, Nat.mod_eq_of_lt hx0]
      simp [Function.comp, hdiv, hmod]

theorem grid_cut_eq (img : Image) (cols rows : ℕ) :
    grid_cut_image img cols rows =
      (List.range (rows * cols)).map fun i => gridCell img cols rows (i % cols) (i / cols) := by
  unfold grid_cut_image gridCell
  exact range_flatMap_map (fun row col => _) rows cols

/-- C6: for columns and rows at least 1, the Grid Segmenter returns
exactly columns times rows cells in row-major order: the entry at index
row * columns + col is the cell whose rectangle is
(col * cellWidth, row * cellHeight, cellWidth, cellHeight) with
cellWidth and cellHeight the floors of the image dimensions divided by
the column and row counts, for every row and col in range; the length
does not depend on the image dimensions. -/
theorem grid_segmenter (img : Image) (cols rows : ℕ) (hc : 1 ≤ cols) (hr : 1 ≤ rows) :
    (grid_cut_image img cols rows).length = cols * rows ∧
    ∀ row col, row < rows → col < cols →
      (grid_cut_image img cols rows)[row * cols + col]? =
        some (⟨col * (img.width / cols), row * (img.height / rows),
                img.width / cols, img.height / rows⟩,
              view img (col * (img.width / cols)) (row * (img.height / rows))
                (img.width / cols) (img.height / rows)) := by
  constructor
  · rw [grid_cut_eq]
    simp [Nat.mul_comm]
  · intro row col hrow hcol
    have hidx : row * cols + col < rows * cols := by
      have h1 : row + 1 ≤ rows := hrow
      calc row * cols + col < row * cols + cols := by omega
        _ = (row + 1) * cols := by ring
        _ ≤ rows * cols := Nat.mul_le_mul_right _ h1
    rw [grid_cut_eq]
    have hlen : row * cols + col < ((List.range (rows * cols)).map
        fun i => gridCell img cols rows (i % cols) (i / cols)).length := by
      simpa using hidx
    rw [List.getElem?_eq_getElem hlen, List.getElem_map, List.getElem_range]
    have hmod : (row * cols + col) % cols = col := by
      rw [Nat.mul_comm row cols, Nat.mul_add_mod, Nat.mod_eq_of_lt hcol]
    have hdiv : (row * cols + col) / cols = row := by
      rw [Nat.mul_comm row cols, Nat.mul_add_div (by omega : 0 < cols),
        Nat.div_eq_of_lt hcol]
      omega
    rw [hmod, hdiv]
    rfl

theorem grid_segmenter_witness :
    (grid_cut_image ⟨4, 3, fun _ _ => 0⟩ 2 3).length = 2 * 3 ∧
    (grid_cut_image ⟨4, 3, fun _ _ => 0⟩ 2 3)[1 * 2 + 1]? =
      some (⟨2, 1, 2, 1⟩, view ⟨4, 3, fun _ _ => 0⟩ 2 1 2 1) := by
  have h := grid_segmenter ⟨4, 3, fun _ _ => 0⟩ 2 3 (by decide) (by decide)
  exact ⟨h.1, h.2 1 1 (by decide) (by decide)⟩

theorem interval_apart (a b cw px : ℕ) (hne : a ≠ b)
    (h1 : a * cw ≤ px) (h2 : px < a * cw + cw)
    (h3 : b * cw ≤ px) (h4 : px < b * cw + cw) : False := by
  rcases Nat.lt_or_ge a b with h | h
  · have hle : (a + 1) * cw ≤ b * cw := Nat.mul_le_mul_right _ (by omega)
    have : a * cw + cw = (a + 1) * cw := by ring
    omega
  · have hb : b < a := by omega
    have hle : (b + 1) * cw ≤ a * cw := Nat.mul_le_mul_right _ (by omega)
    have : b * cw + cw = (b + 1) * cw := by ring
    omega

theorem gridCell_disjoint (img : Image) (cols rows c1 r1 c2 r2 : ℕ)
    (hne : c1 ≠ c2 ∨ r1 ≠ r2) :
    RectDisjoint (gridCell img cols rows c1 r1).1 (gridCell img cols rows c2 r2).1 := by
  intro px py ⟨hA, hB⟩
  simp only [gridCell, inRect] at hA hB
  rcases hne with h | h
  · exact interval_apart c1 c2 (img.width / cols) px h hA.1 hA.2.1 hB.1 hB.2.1
  · exact interval_apart r1 r2 (img.height / rows) py h hA.2.2.1 hA.2.2.2 hB.2.2.1 hB.2.2.2

theorem grid_getD (img : Image) (cols rows i : ℕ) (hi : i < rows * cols) :
    (grid_cut_image img cols rows).getD i default =
      gridCell img cols rows (i % cols) (i / cols) := by
  rw [List.getD_eq_getElem?_getD, grid_cut_eq]
  have hlen : i < ((List.range (rows * cols)).map fun k =>
      gridCell img cols rows (k % cols) (k / cols)).length := by
    simpa using hi
  rw [List.getElem?_eq_getElem hlen, List.getElem_map, List.getElem_range]
  rfl

theorem sum_const_map (c : ℕ) : ∀ n : ℕ, (((List.range n).map fun _ => c).sum = n * c) := by
  intro n
  induction n with
  | zero => simp
  | succ k ih =>
    rw [List.range_succ, List.map_append, List.sum_append, ih]
    simp [Nat.succ_mul]

/-- C7: distinct cells of the grid are pairwise disjoint rectangles,
and the cell widths of any one row sum to at most the image width (the
remainder of the division is dropped). -/
theorem grid_geometry (img : Image) (cols rows : ℕ) (hc : 1 ≤ cols) (hr : 1 ≤ rows) :
    (∀ i j, i < (grid_cut_image img cols rows).length →
      j < (grid_cut_image img cols rows).length → i ≠ j →
      RectDisjoint ((grid_cut_image img cols rows).getD i default).1
        ((grid_cut_image img cols rows).getD j default).1) ∧
    ∀ row, row < rows →
      (((List.range cols).map fun col =>
        ((grid_cut_image img cols rows).getD (row * cols + col) default).1.w).sum
        ≤ img.width) := by
  constructor
  · intro i j hi hj hne
    have hi' : i < rows * cols := by
      rwa [grid_cut_eq, List.length_map, List.length_range] at hi
    have hj' : j < rows * cols := by
      rwa [grid_cut_eq, List.length_map, List.length_range] at hj
    rw [grid_getD img cols rows i hi', grid_getD img cols rows j hj']
    apply gridCell_disjoint
    by_contra hcon
    push_neg at hcon
    apply hne
    rw [← Nat.div_add_mod i cols, ← Nat.div_add_mod j cols, hcon.1, hcon.2]
  · intro row hrow
    have hmap : ((List.range cols).map fun col =>
        ((grid_cut_image img cols rows).getD (row * cols + col) default).1.w) =
        (List.range cols).map fun _ => img.width / cols := by
      refine List.map_congr_left fun col hcol => ?_
      have hcol' : col < cols := List.mem_range.mp hcol
      have hidx : row * cols + col < rows * cols := by
        calc row * cols + col < row * cols + cols := by omega
          _ = (row + 1) * cols := by ring
          _ ≤ rows * cols := Nat.mul_le_mul_right _ (by omega)
      rw [grid_getD img cols rows _ hidx]
      rfl
    rw [hmap, sum_const_map]
    calc cols * (img.width / cols) = img.width / cols * cols := by ring
      _ ≤ img.width := Nat.div_mul_le_self _ _

theorem grid_geometry_witness :
    RectDisjoint ⟨0, 0, 2, 1⟩ ⟨2, 0, 2, 1⟩ ∧
    (((List.range 2).map fun col =>
      ((grid_cut_image ⟨4, 3, fun _ _ => 0⟩ 2 3).getD (1 * 2 + col) default).1.w).sum
      ≤ 4) := by
  have h := grid_geometry ⟨4, 3, fun _ _ => 0⟩ 2 3 (by decide) (by decide)
  refine ⟨?_, h.2 1 (by decide)⟩
  have hd := h.1 0 1 (by decide) (by decide) (by decide)
  exact hd

/-! ### Properties of the f32 rounding -/

theorem bitsAux_zero_arg : ∀ fuel, bitsAux fuel 0 = 0 := by
  intro fuel
  cases fuel <;> rfl

theorem bitsAux_succ (fuel n : ℕ) :
    bitsAux (fuel + 1) n = if n = 0 then 0 else bitsAux fuel (n / 2) + 1 := rfl

theorem bitsAux_spec : ∀ fuel n, n < 2 ^ fuel → 1 ≤ n →
    2 ^ (bitsAux fuel n - 1) ≤ n ∧ n < 2 ^ bitsAux fuel n := by
  intro fuel
  induction fuel with
  | zero =>
    intro n h h1
    norm_num at h
    omega
  | succ f ih =>
    intro n h h1
    rw [bitsAux_succ, if_neg (by omega : ¬ n = 0)]
    by_cases h2 : n / 2 = 0
    · have hn1 : n = 1 := by omega
      subst hn1
      rw [show (1 : ℕ) / 2 = 0 from rfl, bitsAux_zero_arg f]
      norm_num
    · have hpos : 1 ≤ n / 2 := by omega
      have hhalf : n / 2 < 2 ^ f := by
        have hp : 2 ^ (f + 1) = 2 * 2 ^ f := by ring
        omega
      obtain ⟨hlo, hhi⟩ := ih (n / 2) hhalf hpos
      have hb1 : 1 ≤ bitsAux f (n / 2) := by
        by_contra hb
        push_neg at hb
        have hb0 : bitsAux f (n / 2) = 0 := by omega
        rw [hb0] at hhi
        norm_num at hhi
        omega
      constructor
      · have e1 : bitsAux f (n / 2) + 1 - 1 = bitsAux f (n / 2) := by omega
        rw [e1]
        have e2 : 2 ^ bitsAux f (n / 2) = 2 * 2 ^ (bitsAux f (n / 2) - 1) := by
          rw [← pow_succ']
          congr 1
          omega
        omega
      · have e3 : 2 ^ (bitsAux f (n / 2) + 1) = 2 * 2 ^ bitsAux f (n / 2) := by
          rw [pow_succ']
        omega

theorem bits_facts (n : ℕ) (h24 : 2 ^ 24 ≤ n) (h64 : n < 2 ^ 64) :
    25 ≤ bits n ∧ 2 ^ (bits n - 1) ≤ n ∧ n < 2 ^ bits n := by
  have h1 : 1 ≤ n := by
    have : (0 : ℕ) < 2 ^ 24 := by norm_num
    omega
  have h := bitsAux_spec 64 n h64 h1
  refine ⟨?_, h.1, h.2⟩
  by_contra hc
  push_neg at hc
  have hle : 2 ^ bitsAux 64 n ≤ 2 ^ 24 := Nat.pow_le_pow_right (by norm_num) (by
    simp only [bits] at hc
    omega)
  have := h.2
  simp only [bits] at hc ⊢
  omega

theorem bits_le_of_lt (n k : ℕ) (h64 : n < 2 ^ 64) (h1 : 1 ≤ n) (h : n < 2 ^ k) :
    bits n ≤ k := by
  by_contra hc
  push_neg at hc
  have hspec := (bitsAux_spec 64 n h64 h1).1
  have hle : 2 ^ k ≤ 2 ^ (bits n - 1) := Nat.pow_le_pow_right (by norm_num) (by omega)
  simp only [bits] at hle
  omega

theorem rm_small (n : ℕ) (h : n < 2 ^ 24) : rm n = n := by
  rw [rm, if_pos h]

theorem rm_big (n : ℕ) (h : ¬ n < 2 ^ 24) : rm n = rmAt (bits n - 24) n := by
  rw [rm, if_neg h]

theorem rmAt_cases (s n : ℕ) :
    rmAt s n = (n / 2 ^ s) * 2 ^ s ∨ rmAt s n = (n / 2 ^ s + 1) * 2 ^ s := by
  rw [rmAt]
  split_ifs with hc
  · right; rfl
  · left; rfl

/-- Half-ulp accuracy of rounding to nearest. -/
theorem rmAt_near (s n : ℕ) (hs1 : 1 ≤ s) :
    n ≤ rmAt s n + 2 ^ (s - 1) ∧ rmAt s n ≤ n + 2 ^ (s - 1) := by
  have h2s : 2 ^ s = 2 * 2 ^ (s - 1) := by
    rw [← pow_succ']
    congr 1
    omega
  have hqr := Nat.div_add_mod n (2 ^ s)
  have hrlt : n % 2 ^ s < 2 ^ s := Nat.mod_lt _ (by positivity)
  have hcomm : 2 ^ s * (n / 2 ^ s) = (n / 2 ^ s) * 2 ^ s := Nat.mul_comm _ _
  have hexp : (n / 2 ^ s + 1) * 2 ^ s = (n / 2 ^ s) * 2 ^ s + 2 ^ s := add_one_mul _ _
  rw [rmAt]
  split_ifs with hc
  · have hge : 2 ^ (s - 1) ≤ n % 2 ^ s := by
      rcases hc with hlt | ⟨heq, -⟩
      · omega
      · omega
    omega
  · push_neg at hc
    have hle : n % 2 ^ s ≤ 2 ^ (s - 1) := by
      rcases Nat.lt_or_ge (n % 2 ^ s) (2 ^ (s - 1)) with hl | hg
      · omega
      · omega
    omega

/-- Rounding to nearest never moves below a multiple of the ulp that is
at most n. -/
theorem rmAt_ge_of_dvd (s n M : ℕ) (hM : M ≤ n) (hdvd : 2 ^ s ∣ M) :
    M ≤ rmAt s n := by
  obtain ⟨t, ht⟩ := hdvd
  have hMt : M = t * 2 ^ s := by rw [ht, Nat.mul_comm]
  have htle : t ≤ n / 2 ^ s := by
    have h1 : t * 2 ^ s ≤ n := by omega
    exact (Nat.le_div_iff_mul_le (by positivity)).mpr h1
  have h2 : t * 2 ^ s ≤ (n / 2 ^ s) * 2 ^ s := Nat.mul_le_mul_right _ htle
  rcases rmAt_cases s n with hc | hc
  · rw [hc]
    omega
  · rw [hc]
    have h3 : (n / 2 ^ s) * 2 ^ s ≤ (n / 2 ^ s + 1) * 2 ^ s :=
      Nat.mul_le_mul_right _ (by omega)
    omega

/-- When n sits strictly less than half an ulp below a multiple of the
ulp, rounding to nearest lands exactly on that multiple. -/
theorem rmAt_eq_add (s n d : ℕ) (hs1 : 1 ≤ s) (hd0 : 0 < d)
    (hdlt : d < 2 ^ (s - 1)) (hdvd : 2 ^ s ∣ (n + d)) : rmAt s n = n + d := by
  have h2s : 2 ^ s = 2 * 2 ^ (s - 1) := by
    rw [← pow_succ']
    congr 1
    omega
  obtain ⟨K, hK⟩ := hdvd
  have hK1 : 1 ≤ K := by
    rcases Nat.eq_zero_or_pos K with h0 | h1
    · rw [h0, Nat.mul_zero] at hK
      omega
    · exact h1
  have hKexp : 2 ^ s * K = 2 ^ s * (K - 1) + 2 ^ s := by
    have h1 : K - 1 + 1 = K := by omega
    calc 2 ^ s * K = 2 ^ s * (K - 1 + 1) := by rw [h1]
      _ = 2 ^ s * (K - 1) + 2 ^ s := by rw [Nat.mul_add, Nat.mul_one]
  have hn : n = 2 ^ s * (K - 1) + (2 ^ s - d) := by omega
  have hr : n % 2 ^ s = 2 ^ s - d := by
    conv_lhs => rw [hn]
    rw [Nat.mul_add_mod, Nat.mod_eq_of_lt (by omega)]
  have hq : n / 2 ^ s = K - 1 := by
    conv_lhs => rw [hn]
    rw [Nat.mul_add_div (by positivity), Nat.div_eq_of_lt (by omega)]
    omega
  have hcond : 2 ^ (s - 1) < n % 2 ^ s := by omega
  rw [rmAt, if_pos (Or.inl hcond), hq]
  have hK2 : K - 1 + 1 = K := by omega
  rw [hK2, Nat.mul_comm]
  omega

/-- The rounding shift of rm in the large regime, with its range
facts. -/
theorem rm_spec (n : ℕ) (h24 : 2 ^ 24 ≤ n) (h64 : n < 2 ^ 64) :
    ∃ s, rm n = rmAt s n ∧ 1 ≤ s ∧ 2 ^ (s + 23) ≤ n ∧ n < 2 ^ (s + 24) := by
  obtain ⟨hb25, hblo, hbhi⟩ := bits_facts n h24 h64
  refine ⟨bits n - 24, rm_big n (by omega), by omega, ?_, ?_⟩
  · have he : bits n - 24 + 23 = bits n - 1 := by omega
    rw [he]
    exact hblo
  · have he : bits n - 24 + 24 = bits n := by omega
    rw [he]
    exact hbhi

/-- The rounding at most doubles its argument. -/
theorem rm_le_double (n : ℕ) (h64 : n < 2 ^ 64) : rm n ≤ 2 * n := by
  by_cases h : n < 2 ^ 24
  · rw [rm_small n h]
    omega
  · obtain ⟨s, hrm, hs1, hlo, hhi⟩ := rm_spec n (by omega) h64
    rw [hrm]
    have h1 : (n / 2 ^ s) * 2 ^ s ≤ n := Nat.div_mul_le_self _ _
    have h2 : 2 ^ s ≤ n := by
      calc 2 ^ s ≤ 2 ^ (s + 23) := Nat.pow_le_pow_right (by norm_num) (by omega)
        _ ≤ n := hlo
    have hexp : (n / 2 ^ s + 1) * 2 ^ s = (n / 2 ^ s) * 2 ^ s + 2 ^ s := add_one_mul _ _
    rcases rmAt_cases s n with hc | hc <;> omega

/-! ### The crop margins at realistic image sizes -/

theorem cropX_exact (w : ℕ) (hw : w ≤ 240000) : cropX w = 33 * w / 500 := by
  by_cases hsmall : w ≤ 1
  · have h01 : w = 0 ∨ w = 1 := by omega
    rcases h01 with rfl | rfl <;> decide
  · push_neg at hsmall
    have hw24 : w < 2 ^ 24 := by
      calc w ≤ 240000 := hw
        _ < 2 ^ 24 := by norm_num
    rw [cropX, rm_small w hw24]
    set p := w * 8858370 with hp
    have hp24 : 2 ^ 24 ≤ p := by
      have h1 : 2 * 8858370 ≤ w * 8858370 := Nat.mul_le_mul_right _ hsmall
      calc (2 : ℕ) ^ 24 ≤ 2 * 8858370 := by norm_num
        _ ≤ p := h1
    have hple : p ≤ 240000 * 8858370 := Nat.mul_le_mul_right _ hw
    have hp64 : p < 2 ^ 64 := by
      calc p ≤ 240000 * 8858370 := hple
        _ < 2 ^ 64 := by norm_num
    have hp41 : p < 2 ^ 41 := by
      calc p ≤ 240000 * 8858370 := hple
        _ < 2 ^ 41 := by norm_num
    obtain ⟨s, hrm, hs1, hlo, hhi⟩ := rm_spec p hp24 hp64
    have hs17 : s ≤ 17 := by
      by_contra hcon
      push_neg at hcon
      have h1 : (2 : ℕ) ^ 41 ≤ 2 ^ (s + 23) := Nat.pow_le_pow_right (by norm_num) (by omega)
      omega
    have hXle : 2 ^ (s - 1) ≤ 65536 := by
      calc (2 : ℕ) ^ (s - 1) ≤ 2 ^ 16 := Nat.pow_le_pow_right (by norm_num) (by omega)
        _ = 65536 := by norm_num
    have hnear := rmAt_near s p hs1
    rw [hrm]
    have hkey : 500 * p + 24 * w = w * 4429185024 := by rw [hp]; ring
    have hNj := Nat.div_add_mod (33 * w) 500
    have hjlt : (33 * w) % 500 < 500 := Nat.mod_lt _ (by norm_num)
    have h27 : (2 : ℕ) ^ 27 = 134217728 := by norm_num
    rw [h27]
    apply Nat.div_eq_of_lt_le
    · by_cases hj0 : (33 * w) % 500 = 0
      · have hdvd : (500 : ℕ) ∣ w := by
          have h5 : (500 : ℕ) ∣ 33 * w := Nat.dvd_of_mod_eq_zero hj0
          have hcop : Nat.Coprime 500 33 := by decide
          exact hcop.dvd_of_dvd_mul_left h5
        obtain ⟨m, hm⟩ := hdvd
        have hm1 : 1 ≤ m := by omega
        have hN : 33 * w / 500 = 33 * m := by
          rw [hm, show 33 * (500 * m) = 500 * (33 * m) by ring]
          exact Nat.mul_div_cancel_left _ (by norm_num)
        have hT : p + 24 * m = 33 * m * 134217728 := by rw [hp, hm]; ring
        have hsplit : 2 ^ (s + 24) = 2 ^ (s - 1) * 2 ^ 25 := by
          rw [← pow_add]
          congr 1
          omega
        have hle1 : 24 * m * 2 ^ 25 ≤ p := by
          rw [hp, hm]
          calc 24 * m * 2 ^ 25 = m * 805306368 := by ring
            _ ≤ m * 4429185000 := Nat.mul_le_mul_left _ (by norm_num)
            _ = 500 * m * 8858370 := by ring
        have hdlt : 24 * m < 2 ^ (s - 1) := by
          have h2 : 24 * m * 2 ^ 25 < 2 ^ (s - 1) * 2 ^ 25 := by
            calc 24 * m * 2 ^ 25 ≤ p := hle1
              _ < 2 ^ (s + 24) := hhi
              _ = 2 ^ (s - 1) * 2 ^ 25 := hsplit
          exact Nat.lt_of_mul_lt_mul_right h2
        have hdvd2 : 2 ^ s ∣ (p + 24 * m) := by
          rw [hT, show (134217728 : ℕ) = 2 ^ 27 by norm_num]
          exact Dvd.dvd.mul_left (pow_dvd_pow 2 (by omega)) _
        have heq := rmAt_eq_add s p (24 * m) hs1 (by omega) hdlt hdvd2
        rw [hN, heq, hT]
      · omega
    · omega

theorem cropY_exact (h : ℕ) (hh : h ≤ 140000) : cropY h = 79 * h / 1000 := by
  by_cases hsmall : h ≤ 1
  · have h01 : h = 0 ∨ h = 1 := by omega
    rcases h01 with rfl | rfl <;> decide
  · push_neg at hsmall
    have hh24 : h < 2 ^ 24 := by
      calc h ≤ 140000 := hh
        _ < 2 ^ 24 := by norm_num
    rw [cropY, rm_small h hh24]
    set p := h * 10603201 with hp
    have hp24 : 2 ^ 24 ≤ p := by
      have h1 : 2 * 10603201 ≤ h * 10603201 := Nat.mul_le_mul_right _ hsmall
      calc (2 : ℕ) ^ 24 ≤ 2 * 10603201 := by norm_num
        _ ≤ p := h1
    have hple : p ≤ 140000 * 10603201 := Nat.mul_le_mul_right _ hh
    have hp64 : p < 2 ^ 64 := by
      calc p ≤ 140000 * 10603201 := hple
        _ < 2 ^ 64 := by norm_num
    have hp41 : p < 2 ^ 41 := by
      calc p ≤ 140000 * 10603201 := hple
        _ < 2 ^ 41 := by norm_num
    obtain ⟨s, hrm, hs1, hlo, hhi⟩ := rm_spec p hp24 hp64
    have hs17 : s ≤ 17 := by
      by_contra hcon
      push_neg at hcon
      have h1 : (2 : ℕ) ^ 41 ≤ 2 ^ (s + 23) := Nat.pow_le_pow_right (by norm_num) (by omega)
      omega
    have hXle : 2 ^ (s - 1) ≤ 65536 := by
      calc (2 : ℕ) ^ (s - 1) ≤ 2 ^ 16 := Nat.pow_le_pow_right (by norm_num) (by omega)
        _ = 65536 := by norm_num
    have hnear := rmAt_near s p hs1
    rw [hrm]
    have hkey : 1000 * p = h * 10603201000 := by rw [hp]; ring
    have hNj := Nat.div_add_mod (79 * h) 1000
    have hjlt : (79 * h) % 1000 < 1000 := Nat.mod_lt _ (by norm_num)
    have h27 : (2 : ℕ) ^ 27 = 134217728 := by norm_num
    rw [h27]
    apply Nat.div_eq_of_lt_le
    · apply rmAt_ge_of_dvd
      · omega
      · rw [show (134217728 : ℕ) = 2 ^ 27 by norm_num]
        exact Dvd.dvd.mul_left (pow_dvd_pow 2 (by omega)) _
    · omega

theorem cropExtra_exact (y : ℕ) (hy : y ≤ 1000000) : cropExtra y = y / 5 := by
  by_cases hsmall : y ≤ 1
  · have h01 : y = 0 ∨ y = 1 := by omega
    rcases h01 with rfl | rfl <;> decide
  · push_neg at hsmall
    have hy24 : y < 2 ^ 24 := by
      calc y ≤ 1000000 := hy
        _ < 2 ^ 24 := by norm_num
    rw [cropExtra, rm_small y hy24]
    set p := y * 13421773 with hp
    have hp24 : 2 ^ 24 ≤ p := by
      have h1 : 2 * 13421773 ≤ y * 13421773 := Nat.mul_le_mul_right _ hsmall
      calc (2 : ℕ) ^ 24 ≤ 2 * 13421773 := by norm_num
        _ ≤ p := h1
    have hple : p ≤ 1000000 * 13421773 := Nat.mul_le_mul_right _ hy
    have hp64 : p < 2 ^ 64 := by
      calc p ≤ 1000000 * 13421773 := hple
        _ < 2 ^ 64 := by norm_num
    have hp44 : p < 2 ^ 44 := by
      calc p ≤ 1000000 * 13421773 := hple
        _ < 2 ^ 44 := by norm_num
    obtain ⟨s, hrm, hs1, hlo, hhi⟩ := rm_spec p hp24 hp64
    have hs20 : s ≤ 20 := by
      by_contra hcon
      push_neg at hcon
      have h1 : (2 : ℕ) ^ 44 ≤ 2 ^ (s + 23) := Nat.pow_le_pow_right (by norm_num) (by omega)
      omega
    have hXle : 2 ^ (s - 1) ≤ 524288 := by
      calc (2 : ℕ) ^ (s - 1) ≤ 2 ^ 19 := Nat.pow_le_pow_right (by norm_num) (by omega)
        _ = 524288 := by norm_num
    have hnear := rmAt_near s p hs1
    rw [hrm]
    have hkey : 5 * p = y * 67108865 := by rw [hp]; ring
    have hNj := Nat.div_add_mod y 5
    have hjlt : y % 5 < 5 := Nat.mod_lt _ (by norm_num)
    have h26 : (2 : ℕ) ^ 26 = 67108864 := by norm_num
    rw [h26]
    apply Nat.div_eq_of_lt_le
    · apply rmAt_ge_of_dvd
      · omega
      · rw [show (67108864 : ℕ) = 2 ^ 26 by norm_num]
        exact Dvd.dvd.mul_left (pow_dvd_pow 2 (by omega)) _
    · omega

/-- C4 (amended): at realistic image sizes, width at most 240000 and
height at most 140000, the Border Cropper produces exactly the
sub-image at offset (floor(w * 0.066), floor(h * 0.079)) with width
w - 2 * floor(w * 0.066) and height
h - 2 * floor(h * 0.079) + floor(floor(h * 0.079) * 0.2); beyond those
sizes the f32 arithmetic of the source can differ from the exact
fractions (first at width 993303 and height 141481). -/
theorem border_crop_formula (img : Image) (hw : img.width ≤ 240000)
    (hh : img.height ≤ 140000) :
    cropBorder img = view img (33 * img.width / 500) (79 * img.height / 1000)
      (img.width - 2 * (33 * img.width / 500))
      (img.height - 2 * (79 * img.height / 1000) + (79 * img.height / 1000) / 5) := by
  have hx := cropX_exact img.width hw
  have hy := cropY_exact img.height hh
  have hyb : 79 * img.height / 1000 ≤ 1000000 := by
    have h1 : 79 * img.height ≤ 79 * 140000 := Nat.mul_le_mul_left _ hh
    have h2 : 79 * img.height / 1000 ≤ 79 * 140000 / 1000 := Nat.div_le_div_right h1
    omega
  have he : cropExtra (79 * img.height / 1000) = (79 * img.height / 1000) / 5 :=
    cropExtra_exact _ hyb
  show view img (cropX img.width) (cropY img.height)
      (img.width - cropX img.width * 2)
      (img.height - cropY img.height * 2 + cropExtra (cropY img.height)) = _
  rw [hx, hy, he]
  have h2a : 33 * img.width / 500 * 2 = 2 * (33 * img.width / 500) := Nat.mul_comm _ _
  have h2b : 79 * img.height / 1000 * 2 = 2 * (79 * img.height / 1000) := Nat.mul_comm _ _
  rw [h2a, h2b]

theorem border_crop_formula_witness :
    cropBorder ⟨1600, 1200, fun _ _ => 0⟩ =
      view ⟨1600, 1200, fun _ _ => 0⟩ 105 94 1390 1030 :=
  border_crop_formula ⟨1600, 1200, fun _ _ => 0⟩ (by norm_num) (by norm_num)

/-- C4 (counterexample to the original claim): at width 993303 the f32
margin computation of the source yields 65558 while
floor(993303 * 0.066) is 65557, so the cropped width differs from the
claimed w - 2 * floor(w * 0.066). -/
theorem border_crop_formula_cex :
    (cropBorder ⟨993303, 1000, fun _ _ => 0⟩).width ≠
      993303 - 2 * (33 * 993303 / 500) := by decide

/-- Rounded multiply and shift stays below the linear bound: the
workhorse for the in-bounds safety of the crop rectangle. -/
theorem crop_term_le (v C e k : ℕ) (hv : v < 2 ^ 32) (hC : C < 2 ^ 24)
    (hk : k * (4 * C) ≤ 2 ^ e) : k * (rm (rm v * C) / 2 ^ e) ≤ v := by
  have hv64 : v < 2 ^ 64 := by
    calc v < 2 ^ 32 := hv
      _ < 2 ^ 64 := by norm_num
  have hrv : rm v ≤ 2 * v := rm_le_double v hv64
  have hple : rm v * C ≤ 2 * v * C := Nat.mul_le_mul_right _ hrv
  have hp64 : rm v * C < 2 ^ 64 := by
    calc rm v * C ≤ 2 * v * C := hple
      _ < 2 * 2 ^ 32 * 2 ^ 24 := by
          apply Nat.mul_lt_mul_of_le_of_lt
          · exact Nat.mul_le_mul_left _ (le_of_lt hv)
          · exact hC
          · positivity
      _ < 2 ^ 64 := by norm_num
  have hrp : rm (rm v * C) ≤ 2 * (rm v * C) := rm_le_double _ hp64
  have hchain : k * rm (rm v * C) ≤ (k * (4 * C)) * v := by
    calc k * rm (rm v * C) ≤ k * (2 * (rm v * C)) := Nat.mul_le_mul_left _ hrp
      _ ≤ k * (2 * (2 * v * C)) := by
          apply Nat.mul_le_mul_left
          apply Nat.mul_le_mul_left
          exact hple
      _ = (k * (4 * C)) * v := by ring
  calc k * (rm (rm v * C) / 2 ^ e) ≤ k * rm (rm v * C) / 2 ^ e :=
        Nat.mul_div_le_mul_div_assoc _ _ _
    _ ≤ (k * (4 * C)) * v / 2 ^ e := Nat.div_le_div_right hchain
    _ ≤ 2 ^ e * v / 2 ^ e := Nat.div_le_div_right (Nat.mul_le_mul_right _ hk)
    _ = v := Nat.mul_div_cancel_left _ (by positivity)

/-- C10: for every u32-sized image the crop rectangle lies inside the
image: both margins fit twice into the corresponding dimension, the
extension term never exceeds the vertical margin, so the unsigned
subtractions cannot underflow and x plus the cropped width and y plus
the cropped height stay within the source dimensions. -/
theorem crop_in_bounds (img : Image) (hw : img.width < 2 ^ 32)
    (hh : img.height < 2 ^ 32) :
    2 * cropX img.width ≤ img.width ∧
    2 * cropY img.height ≤ img.height ∧
    cropExtra (cropY img.height) ≤ cropY img.height ∧
    cropX img.width + (cropBorder img).width ≤ img.width ∧
    cropY img.height + (cropBorder img).height ≤ img.height := by
  have hX : 2 * cropX img.width ≤ img.width :=
    crop_term_le img.width 8858370 27 2 hw (by norm_num) (by norm_num)
  have hY : 2 * cropY img.height ≤ img.height :=
    crop_term_le img.height 10603201 27 2 hh (by norm_num) (by norm_num)
  have hyr : cropY img.height < 2 ^ 32 := by omega
  have hE : 1 * cropExtra (cropY img.height) ≤ cropY img.height :=
    crop_term_le (cropY img.height) 13421773 26 1 hyr (by norm_num) (by norm_num)
  have hbw : (cropBorder img).width = img.width - cropX img.width * 2 := rfl
  have hbh : (cropBorder img).height =
      img.height - cropY img.height * 2 + cropExtra (cropY img.height) := rfl
  refine ⟨hX, hY, by omega, ?_, ?_⟩
  · rw [hbw]
    omega
  · rw [hbh]
    omega

theorem crop_in_bounds_witness :
    2 * cropX 1600 ≤ 1600 ∧ cropX 1600 + (cropBorder ⟨1600, 1200, fun _ _ => 0⟩).width ≤ 1600 := by
  have h := crop_in_bounds ⟨1600, 1200, fun _ _ => 0⟩ (by norm_num) (by norm_num)
  exact ⟨h.1, h.2.2.2.1⟩

/-- C8: the sharpening step of the pipeline is filter3x3 with the fixed
kernel of center weight 5, orthogonal weights -1 and diagonal weights 0,
and its output has the same dimensions as its input with every pixel in
the byte range of the input depth. -/
theorem sharpening_filter :
    (sharpenKernel.getD 4 0 = 5 ∧
      (sharpenKernel.getD 1 0 = -1 ∧ sharpenKernel.getD 3 0 = -1 ∧
        sharpenKernel.getD 5 0 = -1 ∧ sharpenKernel.getD 7 0 = -1) ∧
      (sharpenKernel.getD 0 0 = 0 ∧ sharpenKernel.getD 2 0 = 0 ∧
        sharpenKernel.getD 6 0 = 0 ∧ sharpenKernel.getD 8 0 = 0)) ∧
    (∀ img : Image, (filter3x3 sharpenKernel img).width = img.width ∧
      (filter3x3 sharpenKernel img).height = img.height ∧
      (∀ x y, (filter3x3 sharpenKernel img).pixel x y ≤ 255)) ∧
    (∀ t img, scan t img =
      grid_cut_image (cropBorder (threshold (filter3x3 sharpenKernel (orient img)) t))
        12 9) := by
  refine ⟨⟨rfl, ⟨rfl, rfl, rfl, rfl⟩, ⟨rfl, rfl, rfl, rfl⟩⟩,
    fun img => ⟨rfl, rfl, fun x y => ?_⟩, fun t img => rfl⟩
  dsimp only [filter3x3, clampByte]
  split
  · exact Nat.min_le_right _ _
  · exact Nat.zero_le _

/-- C9: every threshold outside the valid pixel-value range [0, 255]
(such as 300) is rejected with the InvalidThreshold error before any
image processing occurs: runScan yields the error for every input
image. -/
theorem invalid_threshold_rejected (t : ℕ) (ht : 255 < t) :
    ∀ img : Image, runScan t img = Except.error ScanError.invalidThreshold := by
  intro img
  unfold runScan parseThreshold
  rw [if_neg (by omega : ¬ t ≤ 255)]
  rfl

theorem invalid_threshold_rejected_witness :
    runScan 300 ⟨1, 1, fun _ _ => 0⟩ = Except.error ScanError.invalidThreshold :=
  invalid_threshold_rejected 300 (by decide) ⟨1, 1, fun _ _ => 0⟩

end HandwritingScan
